import Mathlib

/-!
Verification of the Osmosify adaptive word-practice engine.

Shallow embedding of:
* the match evaluator `checkWordMatch` and its helpers
  (src/lib/speech.ts, lines 270-364),
* the single-word listening session `startListening`
  (src/lib/speech.ts, lines 86-159),
* the continuous listening session `startContinuousListening`
  (src/lib/speech.ts, lines 161-268),
* the practice-session scheduler embodied in the flashcards screen
  (src/app/child/[id]/flashcards.tsx).

JavaScript strings are modelled as `List Char` (the source only ever
handles BMP text, where JS UTF-16 code units coincide with code points).
JS numbers that hold integer counters are modelled as `Nat`; the one
place where genuine IEEE-754 double arithmetic matters
(`Math.floor(cleanTarget.length * 0.35)`) is modelled bit-exactly by
`jsFloor35` below.
-/

/-- Character class used to model both `String.prototype.trim` and the
regular expression `\s+` of the source.  The source relies on the JS
whitespace class; the common whitespace characters are listed here. -/
def isWs (c : Char) : Bool :=
  c == ' ' || c == '\t' || c == '\n' || c == '\r' || c == '\x0b' || c == '\x0c'

/-- Embeds `s.replace(/[.,!?'"]/g, '')` from `checkWordMatch`
(speech.ts line 346): delete every occurrence of the six punctuation
characters. -/
def stripPunct (l : List Char) : List Char :=
  l.filter (fun c =>
    !(c == '.' || c == ',' || c == '!' || c == '?' || c == '\'' || c == '"'))

/-- Embeds `String.prototype.trim`: drop whitespace from both ends. -/
def trimWs (l : List Char) : List Char :=
  ((l.dropWhile isWs).reverse.dropWhile isWs).reverse

/-- Embeds `String.prototype.toLowerCase`, characterwise. -/
def lowerStr (l : List Char) : List Char :=
  l.map Char.toLower

/-- Embeds `s.split(/\s+/)` from JS: split on maximal whitespace runs.
`cur` is the token being accumulated (reversed) and `skipping` records
whether the previous character belonged to a whitespace run (so further
whitespace extends the same separator instead of emitting a token).
On the empty string JS yields `[""]`; a leading (resp. trailing)
whitespace run yields a leading (resp. trailing) empty token, exactly as
in JS.  In `checkWordMatch` the argument is always trimmed first. -/
def splitOnWsAux (cur : List Char) (skipping : Bool) : List Char → List (List Char)
  | [] => [cur.reverse]
  | c :: rest =>
    if isWs c then
      if skipping then splitOnWsAux cur true rest
      else cur.reverse :: splitOnWsAux [] true rest
    else splitOnWsAux (c :: cur) false rest

/-- JS `s.split(/\s+/)`; see `splitOnWsAux`. -/
def splitOnWs (l : List Char) : List (List Char) :=
  splitOnWsAux [] false l

/-- The static homophone table `HOMOPHONES` (speech.ts lines 271-292). -/
def HOMOPHONES : List (List (List Char)) :=
  [ ["sight".toList, "site".toList, "cite".toList],
    ["their".toList, "there".toList, "they".toList ++ ['\''] ++ "re".toList],
    ["to".toList, "too".toList, "two".toList],
    ["your".toList, "you".toList ++ ['\''] ++ "re".toList],
    ["its".toList, "it".toList ++ ['\''] ++ "s".toList],
    ["know".toList, "no".toList],
    ["knew".toList, "new".toList],
    ["knight".toList, "night".toList],
    ["knot".toList, "not".toList],
    ["write".toList, "right".toList, "rite".toList],
    ["read".toList, "red".toList],
    ["hear".toList, "here".toList],
    ["sea".toList, "see".toList],
    ["sun".toList, "son".toList],
    ["one".toList, "won".toList],
    ["be".toList, "bee".toList],
    ["by".toList, "buy".toList, "bye".toList],
    ["for".toList, "four".toList, "fore".toList],
    ["ate".toList, "eight".toList],
    ["wait".toList, "weight".toList] ]

/-- Lookup in the `homophoneMap` built at module load (speech.ts lines
294-307): for each group containing `w` (lowercased group members), the
map accumulates every other member of that group.  The fold mirrors the
construction loop; the returned list is the set of homophones of `w`. -/
def homophoneMapLookup (w : List Char) : List (List Char) :=
  HOMOPHONES.foldl (fun acc g =>
    let lowerGroup := g.map lowerStr
    if lowerGroup.contains w then
      acc ++ lowerGroup.filter (fun other => other != w)
    else acc) []

/-- Embeds `areHomophones` (speech.ts lines 309-315). -/
def areHomophones (word1 word2 : List Char) : Bool :=
  let lower1 := lowerStr word1
  let lower2 := lowerStr word2
  lower1 == lower2 || (homophoneMapLookup lower1).contains lower2

/-- One inner cell pass of the `levenshteinDistance` dynamic program
(speech.ts lines 328-340).  Arguments: the current character `bc` of
`b` (row `i`), the remaining characters of `a` starting at column `j`,
the previous row starting at entry `j-1`, and the current row's entry
`j-1`.  Produces the current row's entries from column `j` on, following
the recurrence of the source matrix exactly (including the order of the
three terms inside `Math.min`). -/
def levAux (bc : Char) : List Char → List Nat → Nat → List Nat
  | [], _, _ => []
  | _ :: _, [], _ => []
  | ac :: arest, p :: prest, cprev =>
    let cj :=
      if bc == ac then p
      else Nat.min (Nat.min (p + 1) (cprev + 1)) (prest.headD 0 + 1)
    cj :: levAux bc arest prest cj

/-- Row-by-row evaluation of the source's matrix: row `0` is
`[0, 1, …, a.length]`, and row `i` is `i` followed by the cells produced
by `levAux` from row `i-1`. -/
def levLoop (a : List Char) : List Char → List Nat → Nat → List Nat
  | [], prev, _ => prev
  | bc :: brest, prev, i => levLoop a brest (i :: levAux bc a prev i) (i + 1)

/-- Embeds `levenshteinDistance(a, b)` (speech.ts lines 317-343): the
value `matrix[b.length][a.length]` of the dynamic program, i.e. the last
entry of the final row. -/
def levenshteinDistance (a b : List Char) : Nat :=
  (levLoop a b (List.range (a.length + 1)) 1).getLastD 0

/-- Floor of the base-2 logarithm, computed with explicit fuel so that it
reduces inside the kernel (the first argument supplies the fuel; calling
with fuel = n is always enough since the argument at least halves each
step). -/
def floorLog2Aux : Nat → Nat → Nat
  | 0, _ => 0
  | fuel + 1, n => if n ≤ 1 then 0 else floorLog2Aux fuel (n / 2) + 1

/-- Floor of the base-2 logarithm of a positive natural. -/
def floorLog2 (n : Nat) : Nat :=
  floorLog2Aux n n

/-- Round the rational `p / 2^s` to the nearest integer, ties to even —
the IEEE-754 rounding step of a double multiplication. -/
def rne (p s : Nat) : Nat :=
  if s = 0 then p
  else
    let q := p / 2 ^ s
    let r := p % 2 ^ s
    let h := 2 ^ (s - 1)
    if h < r then q + 1
    else if r < h then q
    else if q % 2 = 0 then q else q + 1

/-- Bit-exact model of the JS expression `Math.floor(n * 0.35)` for a
natural number `n < 2^53` (every reachable JS string length).  The
double literal `0.35` is exactly `6305039478318694 / 2^54`; the product
`n * 0.35` is the exact product rounded to the nearest double (53-bit
significand, ties to even), and `Math.floor` then truncates.  Note this
differs from the exact `⌊n * 0.35⌋` for some `n` (first at `n = 180`,
where JS gives `62.99999999999999`, hence `62`, not `63`). -/
def jsFloor35 (n : Nat) : Nat :=
  if n = 0 then 0
  else
    let p := n * 6305039478318694
    let k := floorLog2 p
    if k ≤ 52 then
      p / 2 ^ 54
    else
      let m := rne p (k - 52)
      let mk := if m = 2 ^ 53 then (2 ^ 52, k + 1) else (m, k)
      if 106 ≤ mk.2 then mk.1 * 2 ^ (mk.2 - 106) else mk.1 / 2 ^ (106 - mk.2)

/-- The tolerance `Math.max(1, Math.floor(cleanTarget.length * 0.35))`
of `checkWordMatch` (speech.ts line 360). -/
def maxAllowedDistance (targetLength : Nat) : Nat :=
  Nat.max 1 (jsFloor35 targetLength)

/-- Embeds `checkWordMatch` (speech.ts lines 345-364).  The source's
sequence of `if (…) return true` statements is Boolean short-circuit
disjunction, in the same order: exact match, whole-string homophone,
token containment, per-token homophone, Levenshtein tolerance. -/
def checkWordMatch (spoken target : List Char) : Bool :=
  let cleanSpoken := lowerStr (trimWs (stripPunct spoken))
  let cleanTarget := lowerStr (trimWs (stripPunct target))
  let spokenWords := splitOnWs cleanSpoken
  cleanSpoken == cleanTarget
    || areHomophones cleanSpoken cleanTarget
    || spokenWords.contains cleanTarget
    || spokenWords.any (fun w => areHomophones w cleanTarget)
    || decide (levenshteinDistance cleanSpoken cleanTarget ≤
         maxAllowedDistance cleanTarget.length)

/-- Normalisation as worded by the spec (claim C1): strip the
punctuation characters, trim surrounding whitespace, lowercase. -/
def normalizeStr (l : List Char) : List Char :=
  lowerStr (trimWs (stripPunct l))

/-- Homophone relation as worded by the spec (claim C1): the two words
are in the same homophone group of the static table (after lowercasing),
and a word is trivially its own homophone. -/
def areHomophonesSpec (word1 word2 : List Char) : Bool :=
  let lower1 := lowerStr word1
  let lower2 := lowerStr word2
  lower1 == lower2
    || HOMOPHONES.any (fun g =>
         (g.map lowerStr).contains lower1 && (g.map lowerStr).contains lower2)

/-- The reference algorithm exactly as claim C1 words it, with the
exact-arithmetic tolerance `max(1, floor(len(target) * 0.35))` —
`⌊n * 0.35⌋ = n * 35 / 100` in exact arithmetic. -/
def evaluateSpec (spoken target : List Char) : Bool :=
  let s := normalizeStr spoken
  let t := normalizeStr target
  s == t
    || areHomophonesSpec s t
    || (splitOnWs s).contains t
    || (splitOnWs s).any (fun w => areHomophonesSpec w t)
    || decide (levenshteinDistance s t ≤ Nat.max 1 (t.length * 35 / 100))

/-- The reference algorithm of claim C1 with its only flaw repaired: the
tolerance is the one the code actually computes, namely the IEEE-754
double expression `Math.floor(len * 0.35)` (`maxAllowedDistance`). -/
def evaluateSpecIEEE (spoken target : List Char) : Bool :=
  let s := normalizeStr spoken
  let t := normalizeStr target
  s == t
    || areHomophonesSpec s t
    || (splitOnWs s).contains t
    || (splitOnWs s).any (fun w => areHomophonesSpec w t)
    || decide (levenshteinDistance s t ≤ maxAllowedDistance t.length)

theorem mem_homFold (w v : List Char) (gs : List (List (List Char)))
    (acc : List (List Char)) :
    v ∈ gs.foldl (fun acc g =>
        let lowerGroup := g.map lowerStr
        if lowerGroup.contains w then
          acc ++ lowerGroup.filter (fun other => other != w)
        else acc) acc ↔
      v ∈ acc ∨ ∃ g ∈ gs, w ∈ g.map lowerStr ∧ v ∈ g.map lowerStr ∧ v ≠ w := by
  induction gs generalizing acc with
  | nil => simp
  | cons g gs ih =>
    rw [List.foldl_cons, ih]
    by_cases h : (g.map lowerStr).contains w
    · simp only [h, if_pos, List.mem_append, List.mem_filter, List.mem_cons,
        bne_iff_ne, ne_eq]
      constructor
      · rintro (((hv | ⟨hv, hne⟩) | hrest))
        · exact Or.inl hv
        · exact Or.inr ⟨g, Or.inl rfl, by simpa using h, hv, hne⟩
        · obtain ⟨g', hg', hw, hv, hne⟩ := hrest
          exact Or.inr ⟨g', Or.inr hg', hw, hv, hne⟩
      · rintro (hv | ⟨g', (rfl | hg'), hw, hv, hne⟩)
        · exact Or.inl (Or.inl hv)
        · exact Or.inl (Or.inr ⟨hv, hne⟩)
        · exact Or.inr ⟨g', hg', hw, hv, hne⟩
    · simp only [h, if_neg, List.mem_cons]
      constructor
      · rintro (hv | hrest)
        · exact Or.inl hv
        · obtain ⟨g', hg', hw, hv, hne⟩ := hrest
          exact Or.inr ⟨g', Or.inr hg', hw, hv, hne⟩
      · rintro (hv | ⟨g', (rfl | hg'), hw, hv, hne⟩)
        · exact Or.inl hv
        · exact absurd hw (by simpa [List.contains, List.elem_iff] using h)
        · exact Or.inr ⟨g', hg', hw, hv, hne⟩

theorem areHomophones_eq_spec (word1 word2 : List Char) :
    areHomophones word1 word2 = areHomophonesSpec word1 word2 := by
  unfold areHomophones areHomophonesSpec
  by_cases heq : lowerStr word1 == lowerStr word2
  · simp [heq]
  · simp only [Bool.false_or, heq]
    have hne : lowerStr word1 ≠ lowerStr word2 := by
      simpa using heq
    rw [Bool.eq_iff_iff]
    simp only [List.contains, List.elem_iff, List.any_eq_true, Bool.and_eq_true]
    unfold homophoneMapLookup
    rw [mem_homFold]
    constructor
    · rintro (h | ⟨g, hg, hw, hv, _⟩)
      · simp at h
      · exact ⟨g, hg, hw, hv⟩
    · rintro ⟨g, hg, hw, hv⟩
      exact Or.inr ⟨g, hg, hw, hv, fun hc => hne (hc ▸ rfl)⟩

set_option maxRecDepth 8000 in
/-- C1 counterexample: the claim's reference algorithm computes the
tolerance with the exact `floor(len(target) * 0.35)`, but the code
computes `Math.floor(len * 0.35)` in IEEE-754 double arithmetic, and the
two differ first at target length 180 (62 vs 63).  At spoken = 117 `a`s
and target = 180 `a`s the Levenshtein distance is 63, so the code
rejects while the claimed reference algorithm accepts. -/
theorem checkWordMatch_differs_from_exact_floor :
    checkWordMatch (List.replicate 117 'a') (List.replicate 180 'a') = false ∧
    evaluateSpec (List.replicate 117 'a') (List.replicate 180 'a') = true :=
  ⟨by decide, by decide⟩

/-- C1 (amended): `checkWordMatch` is total and returns true exactly when
the ordered reference algorithm of the claim succeeds, with the tolerance
clause computed the way the code computes it — `Math.floor(len * 0.35)`
in IEEE-754 double arithmetic (`maxAllowedDistance`), which coincides
with the exact `floor(len * 0.35)` for every target length below 180 but
not for all lengths.  In particular evaluate("", "cat") is false,
evaluate("kat", "cat") is true, and an empty target yields a maximum
allowed distance of 1. -/
theorem checkWordMatch_matches_reference :
    (∀ spoken target, checkWordMatch spoken target = evaluateSpecIEEE spoken target) ∧
    checkWordMatch "".toList "cat".toList = false ∧
    checkWordMatch "kat".toList "cat".toList = true ∧
    maxAllowedDistance (List.length ([] : List Char)) = 1 := by
  refine ⟨fun spoken target => ?_, by decide, by decide, by decide⟩
  simp only [checkWordMatch, evaluateSpecIEEE, normalizeStr, areHomophones_eq_spec]

/-- Word lifecycle status (`types.ts`, used throughout flashcards.tsx). -/
inductive WordStatus
  | new
  | learning
  | mastered
deriving DecidableEq, Repr

/-- The fields of a persisted `Word` record that the scheduler reads or
writes (flashcards.tsx lines 222-234).  Ids are opaque strings. -/
structure Word where
  id : String
  childId : String
  word : List Char
  status : WordStatus
  masteryCorrectCount : Nat
  lastTested : String
deriving DecidableEq, Repr

/-- `WordProgress` (flashcards.tsx lines 24-28): session-local progress,
holding the working copy of the `Word` record. -/
structure WordProgress where
  word : Word
  sessionCorrectCount : Nat
  totalAttempts : Nat
deriving DecidableEq, Repr

/-- Per-session configuration: the learner settings read at lines 42-43
and 230, and the eligible word list `childWords` (status new or
learning, line 37-40), held fixed for the session. -/
structure SessionConfig where
  masteryThreshold : Nat
  timerSeconds : Nat
  demoteOnMiss : Bool
  childWords : List Word
deriving DecidableEq, Repr

/-- The React state of the flashcards screen that the scheduler
transitions operate on (flashcards.tsx lines 45-51).  `showFeedback`
carries the verdict being displayed (`some isCorrect`) or `none`. -/
structure SessionState where
  wordProgress : List (String × WordProgress)
  queue : List String
  masteredIds : List String
  showFeedback : Option Bool
  isComplete : Bool
  timeLeft : Nat
deriving DecidableEq, Repr

/-- `Map.get` on the session progress map. -/
def mapGet (m : List (String × WordProgress)) (k : String) : Option WordProgress :=
  match m with
  | [] => none
  | (k', v) :: rest => if k' = k then some v else mapGet rest k

/-- `Map.set` on the session progress map: replace the binding if the
key is present, else append it. -/
def mapSet (m : List (String × WordProgress)) (k : String) (v : WordProgress) :
    List (String × WordProgress) :=
  match m with
  | [] => [(k, v)]
  | (k', v') :: rest =>
    if k' = k then (k, v) :: rest else (k', v') :: mapSet rest k v

/-- Session initialisation (flashcards.tsx lines 62-78): build a fresh
progress entry for every eligible word, shuffle the eligible ids into
the queue, reset the timer.  The call to `Math.random`-based shuffling
is modelled by the injected `shuffle` function. -/
def initSession (cfg : SessionConfig) (shuffle : List String → List String) :
    SessionState :=
  { wordProgress := cfg.childWords.map (fun w => (w.id, ⟨w, 0, 0⟩)),
    queue := shuffle (cfg.childWords.map (fun w => w.id)),
    masteredIds := [],
    showFeedback := none,
    isComplete := false,
    timeLeft := cfg.timerSeconds }

/-- The progress-entry update of the first phase of `handleAnswer`
(flashcards.tsx lines 210-234): bump the session-local attempt and
correct counters, and update the persistent `Word` record (cumulative
count, status transition, last-tested timestamp `now`).  The working
copy in the progress map and the record passed to `updateWord` are the
same object in the source; here the updated record is stored back into
the progress map by `handleAnswerBegin`. -/
def updProg (cfg : SessionConfig) (now : String) (isCorrect : Bool)
    (currentProgress : WordProgress) : WordProgress :=
  let updatedWordProg : WordProgress :=
    { currentProgress with
      totalAttempts := currentProgress.totalAttempts + 1,
      sessionCorrectCount :=
        if isCorrect then currentProgress.sessionCorrectCount + 1
        else currentProgress.sessionCorrectCount }
  let w := updatedWordProg.word
  let w1 :=
    if isCorrect then
      let wInc := { w with masteryCorrectCount := w.masteryCorrectCount + 1 }
      if cfg.masteryThreshold ≤ wInc.masteryCorrectCount then
        { wInc with status := WordStatus.mastered }
      else if wInc.status = WordStatus.new then
        { wInc with status := WordStatus.learning }
      else wInc
    else if cfg.demoteOnMiss ∧ w.status = WordStatus.mastered then
      { w with status := WordStatus.learning }
    else w
  let w2 := { w1 with lastTested := now }
  { updatedWordProg with word := w2 }

/-- The guarded outer shell of the first phase: locate the current word
and store the updated progress entry while the feedback shows. -/
def handleAnswerBegin (cfg : SessionConfig) (now : String) (isCorrect : Bool)
    (s : SessionState) : SessionState :=
  match s.queue with
  | [] => s
  | currentWordId :: _ =>
    match mapGet s.wordProgress currentWordId with
    | none => s
    | some currentProgress =>
      { s with
        showFeedback := some isCorrect,
        wordProgress := mapSet s.wordProgress currentWordId
          (updProg cfg now isCorrect currentProgress) }

/-- Second phase of `handleAnswer`: the body of the `setTimeout`
callback (flashcards.tsx lines 236-272), which fires after the feedback
delay.  It clears the feedback, resets the timer, removes the current
word from the queue head and either records session mastery (possibly
completing the session or reshuffling an emptied queue) or reinserts the
word at position `min(queue length, 3)`.  The closure's captured
`currentWordId`, `updatedWordProg`, `queue` and `masteredIds` equal the
state at this point because nothing can run between the two phases (the
timer is cleared, the buttons are disabled and the listener is stopped
while feedback is showing).  The branches where the queue is empty or
the progress entry is missing cannot arise from the first phase and are
modelled as only clearing the feedback. -/
def feedbackAdvance (cfg : SessionConfig) (shuffle : List String → List String)
    (s : SessionState) : SessionState :=
  match s.showFeedback with
  | none => s
  | some _ =>
    let base : SessionState :=
      { s with showFeedback := none, timeLeft := cfg.timerSeconds }
    match s.queue with
    | [] => base
    | currentWordId :: rest =>
      match mapGet s.wordProgress currentWordId with
      | none => base
      | some updatedWordProg =>
        let newQueue := rest
        if cfg.masteryThreshold ≤ updatedWordProg.sessionCorrectCount then
          let newMasteredIds := s.masteredIds ++ [currentWordId]
          if cfg.childWords.length ≤ newMasteredIds.length then
            { base with masteredIds := newMasteredIds, isComplete := true }
          else if newQueue.length = 0 then
            let remaining :=
              shuffle ((cfg.childWords.filter
                (fun w => !(newMasteredIds.contains w.id))).map (fun w => w.id))
            { base with masteredIds := newMasteredIds, queue := remaining }
          else
            { base with
              masteredIds := newMasteredIds,
              queue := newQueue.filter (fun wid => wid != currentWordId) }
        else
          if newQueue.length = 0 then
            { base with queue := [currentWordId] }
          else
            let insertPos := Nat.min newQueue.length 3
            { base with queue := newQueue.insertIdx insertPos currentWordId }

/-- Complete processing of one verdict: phase one followed by the
feedback timeout.  In the running app the timeout always fires before
any further scheduler event, so this composition is the verdict
transition. -/
def stepVerdict (cfg : SessionConfig) (shuffle : List String → List String)
    (now : String) (isCorrect : Bool) (s : SessionState) : SessionState :=
  feedbackAdvance cfg shuffle (handleAnswerBegin cfg now isCorrect s)

/-- A verdict as submitted from outside (Correct/Incorrect button press,
countdown expiry or speech-collaborator match): the buttons carry
`disabled={showFeedback !== null}` (flashcards.tsx lines 460, 484, 493)
and no verdict source exists on the completion screen, so a verdict
arriving during feedback or after completion reaches no handler and
leaves the state untouched; otherwise `handleAnswer` runs. -/
def submitVerdict (cfg : SessionConfig) (now : String) (isCorrect : Bool)
    (s : SessionState) : SessionState :=
  if s.showFeedback.isSome ∨ s.isComplete then s
  else handleAnswerBegin cfg now isCorrect s

/-- `handleRestart` (flashcards.tsx lines 275-282): leave the progress
map as it is, clear completion, feedback and the mastered set, reshuffle
all eligible ids into a new queue, reset the timer. -/
def handleRestart (cfg : SessionConfig) (shuffle : List String → List String)
    (s : SessionState) : SessionState :=
  { s with
    isComplete := false,
    masteredIds := [],
    showFeedback := none,
    queue := shuffle (cfg.childWords.map (fun w => w.id)),
    timeLeft := cfg.timerSeconds }

theorem mapGet_mapSet_self (m : List (String × WordProgress)) (k : String)
    (v : WordProgress) : mapGet (mapSet m k v) k = some v := by
  induction m with
  | nil => simp [mapSet, mapGet]
  | cons h t ih =>
    obtain ⟨k', v'⟩ := h
    by_cases hk : k' = k
    · simp [mapSet, mapGet, hk]
    · simp [mapSet, mapGet, hk, ih]

theorem handleAnswerBegin_eq (cfg : SessionConfig) (now : String) (b : Bool)
    (s : SessionState) (wid : String) (rest : List String) (prog : WordProgress)
    (hq : s.queue = wid :: rest) (hp : mapGet s.wordProgress wid = some prog) :
    handleAnswerBegin cfg now b s =
      { s with showFeedback := some b,
               wordProgress := mapSet s.wordProgress wid (updProg cfg now b prog) } := by
  simp only [handleAnswerBegin, hq, hp]

theorem stepVerdict_mastered (cfg : SessionConfig)
    (shuffle : List String → List String) (now : String) (b : Bool)
    (s : SessionState) (wid : String) (rest : List String) (prog : WordProgress)
    (hq : s.queue = wid :: rest)
    (hp : mapGet s.wordProgress wid = some prog)
    (hm : cfg.masteryThreshold ≤ (updProg cfg now b prog).sessionCorrectCount) :
    stepVerdict cfg shuffle now b s =
      (let s1 : SessionState :=
        { s with showFeedback := none, timeLeft := cfg.timerSeconds,
                 wordProgress := mapSet s.wordProgress wid (updProg cfg now b prog),
                 masteredIds := s.masteredIds ++ [wid] }
       if cfg.childWords.length ≤ s.masteredIds.length + 1 then
         { s1 with isComplete := true }
       else if rest.length = 0 then
         { s1 with queue := shuffle ((cfg.childWords.filter
             (fun w => !((s.masteredIds ++ [wid]).contains w.id))).map (fun w => w.id)) }
       else
         { s1 with queue := rest.filter (fun x => x != wid) }) := by
  rw [stepVerdict, handleAnswerBegin_eq cfg now b s wid rest prog hq hp]
  simp only [feedbackAdvance, hq, mapGet_mapSet_self, hm, if_pos, List.length_append,
    List.length_cons, List.length_nil]

theorem stepVerdict_below (cfg : SessionConfig)
    (shuffle : List String → List String) (now : String) (b : Bool)
    (s : SessionState) (wid : String) (rest : List String) (prog : WordProgress)
    (hq : s.queue = wid :: rest)
    (hp : mapGet s.wordProgress wid = some prog)
    (hm : ¬ cfg.masteryThreshold ≤ (updProg cfg now b prog).sessionCorrectCount) :
    stepVerdict cfg shuffle now b s =
      (let s1 : SessionState :=
        { s with showFeedback := none, timeLeft := cfg.timerSeconds,
                 wordProgress := mapSet s.wordProgress wid (updProg cfg now b prog) }
       if rest.length = 0 then { s1 with queue := [wid] }
       else { s1 with queue := rest.insertIdx (Nat.min rest.length 3) wid }) := by
  rw [stepVerdict, handleAnswerBegin_eq cfg now b s wid rest prog hq hp]
  simp only [feedbackAdvance, hq, mapGet_mapSet_self, hm, if_neg, if_false]

theorem stepVerdict_wordProgress (cfg : SessionConfig)
    (shuffle : List String → List String) (now : String) (b : Bool)
    (s : SessionState) (wid : String) (rest : List String) (prog : WordProgress)
    (hq : s.queue = wid :: rest)
    (hp : mapGet s.wordProgress wid = some prog) :
    (stepVerdict cfg shuffle now b s).wordProgress =
      mapSet s.wordProgress wid (updProg cfg now b prog) := by
  by_cases hm : cfg.masteryThreshold ≤ (updProg cfg now b prog).sessionCorrectCount
  · rw [stepVerdict_mastered cfg shuffle now b s wid rest prog hq hp hm]
    split
    · rfl
    · split <;> rfl
  · rw [stepVerdict_below cfg shuffle now b s wid rest prog hq hp hm]
    split <;> rfl

/-- The identity shuffle, used to instantiate concrete scenarios (the
shuffle is injected randomness; any permutation is a legal outcome of
`sort(() => Math.random() - 0.5)`). -/
def idShuffle : List String → List String := fun l => l

/-- A fresh eligible word record. -/
def freshWord (i c : String) (text : List Char) : Word :=
  ⟨i, c, text, WordStatus.new, 0, ""⟩

def wordOne : Word := freshWord "w1" "c1" "one".toList

def wordTwo : Word := freshWord "w2" "c1" "two".toList

/-- Two eligible words, mastery threshold 1 (concrete scenario of C2). -/
def cfgC2 : SessionConfig := ⟨1, 7, false, [wordOne, wordTwo]⟩

def sessionC2a : SessionState :=
  stepVerdict cfgC2 idShuffle "t1" true (initSession cfgC2 idShuffle)

def sessionC2b : SessionState := stepVerdict cfgC2 idShuffle "t2" true sessionC2a

/-- C2: when the current word's session-local consecutive-correct count
reaches the mastery threshold, the word is appended to the
mastered-this-session set, and the session transitions to Complete
exactly when that set's size equals the total eligible word count (in an
active session whose mastered set is still smaller than the eligible
list).  Concretely, a session over [w1, w2] with threshold 1 reaches
Complete with mastered count 2 of 2 after correct verdicts on w1 then
w2. -/
theorem mastery_reaches_complete :
    (∀ (cfg : SessionConfig) (shuffle : List String → List String) (now : String)
        (b : Bool) (s : SessionState) (wid : String) (rest : List String)
        (prog : WordProgress),
      s.queue = wid :: rest →
      mapGet s.wordProgress wid = some prog →
      s.isComplete = false →
      s.masteredIds.length < cfg.childWords.length →
      cfg.masteryThreshold ≤ (updProg cfg now b prog).sessionCorrectCount →
      (stepVerdict cfg shuffle now b s).masteredIds = s.masteredIds ++ [wid] ∧
        ((stepVerdict cfg shuffle now b s).isComplete = true ↔
          (stepVerdict cfg shuffle now b s).masteredIds.length =
            cfg.childWords.length)) ∧
    sessionC2b.isComplete = true ∧ sessionC2b.masteredIds.length = 2 ∧
    cfgC2.childWords.length = 2 := by
  refine ⟨?_, by decide, by decide, by decide⟩
  intro cfg shuffle now b s wid rest prog hq hp hc hlen hm
  rw [stepVerdict_mastered cfg shuffle now b s wid rest prog hq hp hm]
  by_cases h1 : cfg.childWords.length ≤ s.masteredIds.length + 1
  · rw [if_pos h1]
    refine ⟨rfl, ?_⟩
    simp only [List.length_append, List.length_cons, List.length_nil]
    constructor
    · intro _; omega
    · intro _; trivial
  · rw [if_neg h1]
    split <;> refine ⟨rfl, ?_⟩ <;> rw [hc] <;>
      simp only [List.length_append, List.length_cons, List.length_nil] <;>
      constructor <;> intro h
    · exact absurd h (by simp)
    · exact absurd h (by omega)
    · exact absurd h (by simp)
    · exact absurd h (by omega)

theorem mastery_reaches_complete_witness :
    (stepVerdict cfgC2 idShuffle "t1" true (initSession cfgC2 idShuffle)).masteredIds
        = (initSession cfgC2 idShuffle).masteredIds ++ ["w1"] ∧
      ((stepVerdict cfgC2 idShuffle "t1" true (initSession cfgC2 idShuffle)).isComplete
            = true ↔
        (stepVerdict cfgC2 idShuffle "t1" true
              (initSession cfgC2 idShuffle)).masteredIds.length
          = cfgC2.childWords.length) :=
  mastery_reaches_complete.1 cfgC2 idShuffle "t1" true (initSession cfgC2 idShuffle)
    "w1" ["w2"] ⟨wordOne, 0, 0⟩ (by decide) (by decide) (by decide) (by decide)
    (by decide)

/-- C3: a verdict that leaves the current word's session-local
consecutive-correct count below the mastery threshold removes the word
from the queue head and reinserts it at position
min(length of remaining queue, 3) — the sole entry when the remaining
queue is empty — so the word is never permanently removed and sits at an
index of at most 3 in the new queue, reappearing within at most 4
subsequent presentations. -/
theorem requeue_below_threshold :
    ∀ (cfg : SessionConfig) (shuffle : List String → List String) (now : String)
        (b : Bool) (s : SessionState) (wid : String) (rest : List String)
        (prog : WordProgress),
      s.queue = wid :: rest →
      mapGet s.wordProgress wid = some prog →
      (updProg cfg now b prog).sessionCorrectCount < cfg.masteryThreshold →
      (stepVerdict cfg shuffle now b s).queue
          = rest.insertIdx (Nat.min rest.length 3) wid ∧
        (rest = [] → (stepVerdict cfg shuffle now b s).queue = [wid]) ∧
        (∃ k, k ≤ 3 ∧ (stepVerdict cfg shuffle now b s).queue.get? k = some wid) := by
  intro cfg shuffle now b s wid rest prog hq hp hm
  rw [stepVerdict_below cfg shuffle now b s wid rest prog hq hp (Nat.not_le.mpr hm)]
  by_cases h0 : rest.length = 0
  · rw [if_pos h0]
    have hr : rest = [] := List.length_eq_zero.mp h0
    subst hr
    exact ⟨by simp, fun _ => rfl, 0, by omega, rfl⟩
  · rw [if_neg h0]
    refine ⟨rfl, fun hr => absurd (by rw [hr]; rfl) h0, ?_⟩
    refine ⟨Nat.min rest.length 3, Nat.min_le_right _ _, ?_⟩
    have hn : Nat.min rest.length 3 ≤ rest.length := Nat.min_le_left _ _
    have hlen : (rest.insertIdx (Nat.min rest.length 3) wid).length = rest.length + 1 :=
      List.length_insertIdx _ _ hn
    have hlt : Nat.min rest.length 3 <
        (rest.insertIdx (Nat.min rest.length 3) wid).length := by omega
    rw [List.get?_eq_get hlt]
    exact congrArg some (List.get_insertIdx_self rest wid _ hn)

def wordC3a : Word := freshWord "a1" "c1" "ate".toList

def wordC3b : Word := freshWord "b1" "c1" "bee".toList

/-- Two eligible words, mastery threshold 2 (concrete below-threshold
instance for C3's witness). -/
def cfgC3 : SessionConfig := ⟨2, 7, true, [wordC3a, wordC3b]⟩

theorem requeue_below_threshold_witness :
    (stepVerdict cfgC3 idShuffle "t1" false (initSession cfgC3 idShuffle)).queue
        = ["b1"].insertIdx (Nat.min (List.length ["b1"]) 3) "a1" ∧
      (["b1"] = ([] : List String) →
        (stepVerdict cfgC3 idShuffle "t1" false (initSession cfgC3 idShuffle)).queue
          = ["a1"]) ∧
      (∃ k, k ≤ 3 ∧
        (stepVerdict cfgC3 idShuffle "t1" false
            (initSession cfgC3 idShuffle)).queue.get? k = some "a1") :=
  requeue_below_threshold cfgC3 idShuffle "t1" false (initSession cfgC3 idShuffle)
    "a1" ["b1"] ⟨wordC3a, 0, 0⟩ (by decide) (by decide) (by decide)

def wordC4 : Word := freshWord "w1" "c1" "one".toList

/-- One eligible word, mastery threshold 2 (concrete scenario of C4:
correct, incorrect, correct masters the word within one session). -/
def cfgC4 : SessionConfig := ⟨2, 7, true, [wordC4]⟩

def sessionC4a : SessionState :=
  stepVerdict cfgC4 idShuffle "t1" true (initSession cfgC4 idShuffle)

def sessionC4b : SessionState := stepVerdict cfgC4 idShuffle "t2" false sessionC4a

def sessionC4c : SessionState := stepVerdict cfgC4 idShuffle "t3" true sessionC4b

/-- C4: every processed verdict increments the current word's
session-local attempt count by exactly one, and increments the
session-local consecutive-correct count by one on a correct verdict
while leaving it unchanged (never resetting it) on an incorrect one.
Hence with threshold 2 the concrete run correct-incorrect-correct
masters the word in-session (final counts: 2 correct out of 3
attempts). -/
theorem session_counts_per_verdict :
    (∀ (cfg : SessionConfig) (shuffle : List String → List String) (now : String)
        (b : Bool) (s : SessionState) (wid : String) (rest : List String)
        (prog : WordProgress),
      s.queue = wid :: rest →
      mapGet s.wordProgress wid = some prog →
      ∃ p', mapGet (stepVerdict cfg shuffle now b s).wordProgress wid = some p' ∧
        p'.totalAttempts = prog.totalAttempts + 1 ∧
        p'.sessionCorrectCount =
          (if b then prog.sessionCorrectCount + 1 else prog.sessionCorrectCount)) ∧
    sessionC4c.masteredIds = ["w1"] ∧ sessionC4c.isComplete = true ∧
    (mapGet sessionC4c.wordProgress "w1").map
        (fun p => (p.sessionCorrectCount, p.totalAttempts)) = some (2, 3) := by
  refine ⟨?_, by decide, by decide, by decide⟩
  intro cfg shuffle now b s wid rest prog hq hp
  rw [stepVerdict_wordProgress cfg shuffle now b s wid rest prog hq hp,
    mapGet_mapSet_self]
  exact ⟨updProg cfg now b prog, rfl, rfl, rfl⟩

theorem session_counts_per_verdict_witness :
    ∃ p', mapGet (stepVerdict cfgC4 idShuffle "t2" false sessionC4a).wordProgress "w1"
        = some p' ∧
      p'.totalAttempts = (1 : Nat) + 1 ∧
      p'.sessionCorrectCount = (if false then (1 : Nat) + 1 else 1) :=
  session_counts_per_verdict.1 cfgC4 idShuffle "t2" false sessionC4a "w1" []
    ⟨⟨"w1", "c1", "one".toList, WordStatus.learning, 1, "t1"⟩, 1, 1⟩
    (by decide) (by decide)

theorem updProg_status (cfg : SessionConfig) (now : String) (b : Bool)
    (prog : WordProgress) :
    (updProg cfg now b prog).word.status =
      (if b then
        (if cfg.masteryThreshold ≤ prog.word.masteryCorrectCount + 1 then
          WordStatus.mastered
         else if prog.word.status = WordStatus.new then WordStatus.learning
         else prog.word.status)
       else if cfg.demoteOnMiss ∧ prog.word.status = WordStatus.mastered then
         WordStatus.learning
       else prog.word.status) := by
  cases b <;> simp only [updProg] <;> split_ifs <;> rfl

theorem updProg_masteryCount (cfg : SessionConfig) (now : String) (b : Bool)
    (prog : WordProgress) :
    (updProg cfg now b prog).word.masteryCorrectCount =
      (if b then prog.word.masteryCorrectCount + 1
       else prog.word.masteryCorrectCount) := by
  cases b <;> simp only [updProg] <;> split_ifs <;> rfl

/-- C5: per verdict, the persistent `Word` status follows the source's
transition: correct with cumulative correct count now at least the
threshold gives mastered; otherwise correct from status new gives
learning; incorrect on a mastered word with demoteOnMiss gives learning;
with demoteOnMiss = false an incorrect verdict leaves the status
unchanged.  The cumulative count itself increments exactly on correct
verdicts. -/
theorem word_status_per_verdict :
    ∀ (cfg : SessionConfig) (shuffle : List String → List String) (now : String)
        (b : Bool) (s : SessionState) (wid : String) (rest : List String)
        (prog : WordProgress),
      s.queue = wid :: rest →
      mapGet s.wordProgress wid = some prog →
      ∃ p', mapGet (stepVerdict cfg shuffle now b s).wordProgress wid = some p' ∧
        (b = true → cfg.masteryThreshold ≤ prog.word.masteryCorrectCount + 1 →
          p'.word.status = WordStatus.mastered) ∧
        (b = true → ¬ cfg.masteryThreshold ≤ prog.word.masteryCorrectCount + 1 →
          prog.word.status = WordStatus.new → p'.word.status = WordStatus.learning) ∧
        (b = false → prog.word.status = WordStatus.mastered →
          cfg.demoteOnMiss = true → p'.word.status = WordStatus.learning) ∧
        (b = false → cfg.demoteOnMiss = false →
          p'.word.status = prog.word.status) ∧
        (b = true → p'.word.masteryCorrectCount = prog.word.masteryCorrectCount + 1) ∧
        (b = false → p'.word.masteryCorrectCount = prog.word.masteryCorrectCount) := by
  intro cfg shuffle now b s wid rest prog hq hp
  rw [stepVerdict_wordProgress cfg shuffle now b s wid rest prog hq hp,
    mapGet_mapSet_self]
  refine ⟨updProg cfg now b prog, rfl, ?_, ?_, ?_, ?_, ?_, ?_⟩
  · intro hb hth
    subst hb
    rw [updProg_status]
    simp [hth]
  · intro hb hth hnew
    subst hb
    rw [updProg_status]
    simp [hth, hnew]
  · intro hb hst hdm
    subst hb
    rw [updProg_status]
    simp [hst, hdm]
  · intro hb hdm
    subst hb
    rw [updProg_status]
    simp [hdm]
  · intro hb
    subst hb
    rw [updProg_masteryCount]
    simp
  · intro hb
    subst hb
    rw [updProg_masteryCount]
    simp

def wordC5 : Word := ⟨"w1", "c1", "see".toList, WordStatus.mastered, 5, ""⟩

/-- One already-mastered word, threshold 4, demotion enabled (concrete
demotion instance for C5's witness). -/
def cfgC5 : SessionConfig := ⟨4, 7, true, [wordC5]⟩

theorem word_status_per_verdict_witness :
    ∃ p', mapGet (stepVerdict cfgC5 idShuffle "t1" false
          (initSession cfgC5 idShuffle)).wordProgress "w1" = some p' ∧
      (false = true → cfgC5.masteryThreshold ≤ wordC5.masteryCorrectCount + 1 →
        p'.word.status = WordStatus.mastered) ∧
      (false = true → ¬ cfgC5.masteryThreshold ≤ wordC5.masteryCorrectCount + 1 →
        wordC5.status = WordStatus.new → p'.word.status = WordStatus.learning) ∧
      (false = false → wordC5.status = WordStatus.mastered →
        cfgC5.demoteOnMiss = true → p'.word.status = WordStatus.learning) ∧
      (false = false → cfgC5.demoteOnMiss = false →
        p'.word.status = wordC5.status) ∧
      (false = true → p'.word.masteryCorrectCount = wordC5.masteryCorrectCount + 1) ∧
      (false = false → p'.word.masteryCorrectCount = wordC5.masteryCorrectCount) :=
  word_status_per_verdict cfgC5 idShuffle "t1" false (initSession cfgC5 idShuffle)
    "w1" [] ⟨wordC5, 0, 0⟩ (by decide) (by decide)

/-- C6: a verdict submitted while the scheduler is in the Feedback
sub-state (a verdict was accepted and the next Presenting has not
started) reaches no handler — the verdict buttons are disabled and the
timer and listener are stopped — so it is silently discarded and
produces no state change at all. -/
theorem stale_verdict_ignored :
    ∀ (cfg : SessionConfig) (now : String) (b : Bool) (s : SessionState) (fb : Bool),
      s.showFeedback = some fb → submitVerdict cfg now b s = s := by
  intro cfg now b s fb h
  simp [submitVerdict, h]

def wordC6 : Word := freshWord "w1" "c1" "sun".toList

/-- One eligible word, threshold 4 (concrete feedback-pending state for
C6's witness). -/
def cfgC6 : SessionConfig := ⟨4, 7, true, [wordC6]⟩

/-- A state inside the Feedback sub-state: a verdict has been accepted
and the feedback timeout has not yet fired. -/
def stateC6 : SessionState :=
  handleAnswerBegin cfgC6 "t1" true (initSession cfgC6 idShuffle)

theorem stale_verdict_ignored_witness :
    submitVerdict cfgC6 "t2" false stateC6 = stateC6 :=
  stale_verdict_ignored cfgC6 "t2" false stateC6 true (by decide)

def wordC7 : Word := freshWord "w1" "c1" "for".toList

/-- One eligible word, threshold 1 (concrete completed session for C7). -/
def cfgC7 : SessionConfig := ⟨1, 7, true, [wordC7]⟩

/-- The Complete state after one correct verdict under `cfgC7`. -/
def completeC7 : SessionState :=
  stepVerdict cfgC7 idShuffle "t1" true (initSession cfgC7 idShuffle)

/-- C7 counterexample: `handleRestart` (flashcards.tsx lines 275-282)
never touches `wordProgress`, so after restarting the completed session
the word's session-local consecutive-correct count is still 1, not 0 as
the claim states — with the perverse consequence that every word is
instantly re-mastered on any verdict after a restart. -/
theorem restart_keeps_session_counts :
    completeC7.isComplete = true ∧
      (mapGet (handleRestart cfgC7 idShuffle completeC7).wordProgress "w1").map
          (fun p => p.sessionCorrectCount) = some 1 :=
  ⟨by decide, by decide⟩

/-- C7 (amended): restart after Complete produces a new queue containing
exactly the eligible word ids (reshuffled), clears the
mastered-this-session set, the feedback and the completion flag, resets
the countdown — and leaves the whole progress map, hence both every
word's session-local counts (which are NOT reset to zero) and the
persisted Word status and cumulative mastery counters, unchanged. -/
theorem handleRestart_spec :
    ∀ (cfg : SessionConfig) (shuffle : List String → List String)
        (s : SessionState),
      (∀ l, List.Perm (shuffle l) l) →
      (handleRestart cfg shuffle s).isComplete = false ∧
        (handleRestart cfg shuffle s).masteredIds = [] ∧
        (handleRestart cfg shuffle s).showFeedback = none ∧
        List.Perm (handleRestart cfg shuffle s).queue
          (cfg.childWords.map (fun w => w.id)) ∧
        (handleRestart cfg shuffle s).wordProgress = s.wordProgress ∧
        (handleRestart cfg shuffle s).timeLeft = cfg.timerSeconds := by
  intro cfg shuffle s hsh
  exact ⟨rfl, rfl, rfl, hsh _, rfl, rfl⟩

theorem handleRestart_spec_witness :
    (handleRestart cfgC7 idShuffle completeC7).isComplete = false ∧
      (handleRestart cfgC7 idShuffle completeC7).masteredIds = [] ∧
      (handleRestart cfgC7 idShuffle completeC7).showFeedback = none ∧
      List.Perm (handleRestart cfgC7 idShuffle completeC7).queue
        (cfgC7.childWords.map (fun w => w.id)) ∧
      (handleRestart cfgC7 idShuffle completeC7).wordProgress
          = completeC7.wordProgress ∧
      (handleRestart cfgC7 idShuffle completeC7).timeLeft = cfgC7.timerSeconds :=
  handleRestart_spec cfgC7 idShuffle completeC7 (fun l => List.Perm.refl l)

def wordC8 : Word := freshWord "w1" "c1" "won".toList

/-- One eligible word, threshold 1 (concrete completed session for C8). -/
def cfgC8 : SessionConfig := ⟨1, 7, true, [wordC8]⟩

/-- The reachable Complete state after one correct verdict under `cfgC8`. -/
def completeC8 : SessionState :=
  stepVerdict cfgC8 idShuffle "t1" true (initSession cfgC8 idShuffle)

/-- C8 counterexample: on the transition to Complete the source sets only
`isComplete` and never updates the queue (flashcards.tsx lines 249-250),
so the reachable Complete state still holds the just-mastered word id in
the queue while that id is in the mastered-this-session set. -/
theorem mastered_word_in_queue_at_complete :
    completeC8.isComplete = true ∧ "w1" ∈ completeC8.masteredIds ∧
      "w1" ∈ completeC8.queue :=
  ⟨by decide, by decide, by decide⟩

/-- The C8 invariant restricted to active (non-Complete) states: a word
id in the mastered-this-session set is nowhere in the queue. -/
def masteredDisjointQueue (s : SessionState) : Prop :=
  s.isComplete = false → ∀ wid ∈ s.masteredIds, wid ∉ s.queue

/-- C8 (amended): in every state outside Complete, a mastered-this-session
word id is never in the queue; the property holds at session start and is
preserved by verdict processing (including reshuffle-on-empty), by the
external verdict entry point, and by restart.  (On the transition to
Complete itself the queue is left stale — see the counterexample — but no
word is ever presented from it.) -/
theorem mastered_never_queued_outside_complete :
    ∀ (cfg : SessionConfig) (shuffle : List String → List String),
      (∀ l, List.Perm (shuffle l) l) →
      masteredDisjointQueue (initSession cfg shuffle) ∧
        (∀ s now b, masteredDisjointQueue s →
          masteredDisjointQueue (stepVerdict cfg shuffle now b s)) ∧
        (∀ s now b, masteredDisjointQueue s →
          masteredDisjointQueue (submitVerdict cfg now b s)) ∧
        (∀ s, masteredDisjointQueue (handleRestart cfg shuffle s)) := by
  intro cfg shuffle hsh
  refine ⟨?_, ?_, ?_, ?_⟩
  · intro _ w hw
    simp [initSession] at hw
  · intro s now b hs
    cases hq : s.queue with
    | nil =>
      unfold stepVerdict handleAnswerBegin
      simp only [hq]
      unfold feedbackAdvance
      split
      · exact hs
      · simp only [hq]
        intro hc w hw
        simp
    | cons wid rest =>
      cases hp : mapGet s.wordProgress wid with
      | none =>
        unfold stepVerdict handleAnswerBegin
        simp only [hq, hp]
        unfold feedbackAdvance
        split
        · exact hs
        · simp only [hq, hp]
          intro hc w hw hmem
          dsimp only at hc hw hmem
          have hnq := hs hc w hw
          rw [hq] at hnq
          exact hnq hmem
      | some prog =>
        by_cases hm :
            cfg.masteryThreshold ≤ (updProg cfg now b prog).sessionCorrectCount
        · rw [stepVerdict_mastered cfg shuffle now b s wid rest prog hq hp hm]
          split
          · intro hc w hw
            dsimp only at hc
            exact absurd hc (by simp)
          · split
            · intro hc w hw hmem
              dsimp only at hc hw hmem
              have hmem' := (List.Perm.mem_iff (hsh _)).mp hmem
              obtain ⟨x, hx, hxid⟩ := List.mem_map.mp hmem'
              obtain ⟨_, hxf⟩ := List.mem_filter.mp hx
              rw [hxid] at hxf
              have hnotin : w ∉ s.masteredIds ++ [wid] := by simpa using hxf
              exact hnotin hw
            · intro hc w hw hmem
              dsimp only at hc hw hmem
              obtain ⟨hwr, hne⟩ := List.mem_filter.mp hmem
              rcases List.mem_append.mp hw with hw1 | hw2
              · have hnq := hs hc w hw1
                rw [hq] at hnq
                exact hnq (List.mem_cons_of_mem _ hwr)
              · have hww : w = wid := by simpa using hw2
                rw [hww] at hne
                simp at hne
        · rw [stepVerdict_below cfg shuffle now b s wid rest prog hq hp hm]
          split
          · intro hc w hw hmem
            dsimp only at hc hw hmem
            have hww : w = wid := by simpa using hmem
            have hnq := hs hc w hw
            rw [hq, hww] at hnq
            exact hnq (List.mem_cons_self _ _)
          · intro hc w hw hmem
            dsimp only at hc hw hmem
            have hn : Nat.min rest.length 3 ≤ rest.length := Nat.min_le_left _ _
            have hnq := hs hc w hw
            rw [hq] at hnq
            rcases (List.mem_insertIdx hn).mp hmem with h1 | h1
            · rw [h1] at hnq
              exact hnq (List.mem_cons_self _ _)
            · exact hnq (List.mem_cons_of_mem _ h1)
  · intro s now b hs
    unfold submitVerdict
    split
    · exact hs
    · unfold handleAnswerBegin
      split
      · exact hs
      · split
        · exact hs
        · intro hc w hw
          exact hs hc w hw
  · intro s _ w hw
    simp [handleRestart] at hw

theorem mastered_never_queued_outside_complete_witness :
    masteredDisjointQueue
      (stepVerdict cfgC8 idShuffle "t1" false (initSession cfgC8 idShuffle)) :=
  (mastered_never_queued_outside_complete cfgC8 idShuffle
      (fun l => List.Perm.refl l)).2.1
    (initSession cfgC8 idShuffle) "t1" false
    (mastered_never_queued_outside_complete cfgC8 idShuffle
      (fun l => List.Perm.refl l)).1

/-- `RecognitionResult` (speech.ts lines 59-63); the confidence score is
opaque and only carried through, so it is modelled as an opaque `Nat`. -/
structure RecognitionResult where
  transcript : List Char
  confidence : Nat
  isMatch : Bool
deriving DecidableEq, Repr

/-- One alternative inside a recognition result item
(`lastResult[0].transcript`, `.confidence`). -/
structure SpeechAlt where
  transcript : List Char
  confidence : Nat
deriving DecidableEq, Repr

/-- One item of `event.results`: its alternatives and its `isFinal`
flag. -/
structure SpeechResultItem where
  alts : List SpeechAlt
  isFinal : Bool
deriving DecidableEq, Repr

/-- The events a listening session can receive: a `result` event, an
`error` event, an `end` event. -/
inductive SpeechEvent
  | result (results : List SpeechResultItem)
  | errorEvt (msg : List Char)
  | endEvt
deriving DecidableEq, Repr

/-- The callbacks `startListening` can invoke. -/
inductive SpeechCallback
  | onMatch (r : RecognitionResult)
  | onNoMatch (r : RecognitionResult)
  | onError (msg : List Char)
  | onEnd
deriving DecidableEq, Repr

/-- The closure state of one `startListening` session (speech.ts lines
99-100): the mutable `currentTarget` and the `stopped` flag. -/
structure ListenerState where
  currentTarget : List Char
  stopped : Bool
deriving DecidableEq, Repr

/-- Processing of one incoming event by the `startListening` session
(speech.ts lines 102-138): `handleResult` ignores everything once
`stopped` is set, otherwise takes the last result item's first
alternative, matches it against the current target and calls `onMatch`
(on any match) or `onNoMatch` (on a final non-match); the error and end
listeners are likewise guarded by `stopped`.  The listener state itself
is never changed by an event, so processing returns only the emitted
callbacks. -/
def handleListenEvent (s : ListenerState) : SpeechEvent → List SpeechCallback
  | SpeechEvent.result results =>
    if s.stopped then []
    else
      match results.getLast? with
      | none => []
      | some lastResult =>
        match lastResult.alts.head? with
        | none => []
        | some alt =>
          let transcript := alt.transcript
          let confidence := alt.confidence
          let isMatch := checkWordMatch transcript s.currentTarget
          if isMatch then
            [SpeechCallback.onMatch ⟨transcript, confidence, isMatch⟩]
          else if lastResult.isFinal then
            [SpeechCallback.onNoMatch ⟨transcript, confidence, isMatch⟩]
          else []
  | SpeechEvent.errorEvt msg => if s.stopped then [] else [SpeechCallback.onError msg]
  | SpeechEvent.endEvt => if s.stopped then [] else [SpeechCallback.onEnd]

/-- `stop` on the handle returned by `startListening` (speech.ts lines
141-149): sets the `stopped` flag (and detaches the subscriptions). -/
def stopListening (s : ListenerState) : ListenerState :=
  { s with stopped := true }

/-- `updateTargetWord` on the handle (speech.ts lines 150-152). -/
def updateTargetWord (s : ListenerState) (newWord : List Char) : ListenerState :=
  { s with currentTarget := newWord }

/-- All callbacks emitted over a sequence of incoming events (events
never mutate the listener state). -/
def runListenEvents (s : ListenerState) (evs : List SpeechEvent) :
    List SpeechCallback :=
  (evs.map (handleListenEvent s)).flatten

/-- C9: once `stop()` has been called on the handle returned by
`startListening`, no subsequently arriving result, error or end event
ever invokes any of the `onMatch`, `onNoMatch`, `onError`, `onEnd`
callbacks — every event is dropped by the `stopped` guard, so a late
match can never mutate state; and a later `updateTargetWord` cannot
clear the flag. -/
theorem no_callbacks_after_stop :
    ∀ (s : ListenerState) (evs : List SpeechEvent),
      runListenEvents (stopListening s) evs = [] ∧
      (∀ w, (updateTargetWord (stopListening s) w).stopped = true) := by
  intro s evs
  refine ⟨?_, fun w => rfl⟩
  induction evs with
  | nil => rfl
  | cons ev rest ih =>
    have hev : handleListenEvent (stopListening s) ev = [] := by
      cases ev with
      | result results => simp [handleListenEvent, stopListening]
      | errorEvt msg => simp [handleListenEvent, stopListening]
      | endEvt => simp [handleListenEvent, stopListening]
    simp only [runListenEvents, List.map_cons, List.flatten, hev] at ih ⊢
    simpa using ih

/-- `MultiWordMatch` (speech.ts lines 65-70). -/
structure MultiWordMatch where
  word : List Char
  index : Nat
  transcript : List Char
  confidence : Nat
deriving DecidableEq, Repr

/-- The closure state of one `startContinuousListening` session
(speech.ts lines 175-177): `currentTargets`, the `matchedIndices` set
(modelled as a duplicate-free list) and the `stopped` flag. -/
structure ContState where
  currentTargets : List (List Char)
  matchedIndices : List Nat
  stopped : Bool
deriving DecidableEq, Repr

/-- `Set.add` on the matched-indices set. -/
def addMatchedIndex (m : List Nat) (i : Nat) : List Nat :=
  if m.contains i then m else i :: m

/-- The `currentTargets.forEach` loop of `handleResult` (speech.ts lines
195-204): for each target word with its index, skip it if already
matched, else record a `MultiWordMatch` when some spoken token matches
it. -/
def collectMatches (targets : List (List Char)) (matched : List Nat)
    (spoken : List (List Char)) (transcript : List Char) (confidence : Nat) :
    List MultiWordMatch :=
  targets.enum.filterMap (fun p =>
    if matched.contains p.1 then none
    else if spoken.any (fun sp => checkWordMatch sp p.2) then
      some ⟨p.2, p.1, transcript, confidence⟩
    else none)

/-- The `for (const match of allMatches)` loop (speech.ts lines
212-217): for each collected match whose index is not yet in the set,
add the index and invoke `onWordMatch`.  Returns the final set and the
matches emitted, in order. -/
def emitLoop (matched : List Nat) :
    List MultiWordMatch → List Nat × List MultiWordMatch
  | [] => (matched, [])
  | m :: rest =>
    if matched.contains m.index then emitLoop matched rest
    else
      let next := emitLoop (m.index :: matched) rest
      (next.1, m :: next.2)

/-- `handleResult` of `startContinuousListening` (speech.ts lines
179-218) on one `result` event.  The spoken transcript is lowercased and
split on whitespace; matches against not-yet-matched targets are
collected; if any were collected, `onAllMatches` runs first and may call
`markWordMatched` on arbitrary indices — modelled by the adversarial
`marks` list — and then the emit loop fires `onWordMatch` once per still
unmatched collected index.  (`onInterimResult` receives the transcript
but cannot touch this state.)  Returns the new state and the emitted
`onWordMatch` payloads. -/
def processContResult (s : ContState) (results : List SpeechResultItem)
    (marks : List Nat) : ContState × List MultiWordMatch :=
  if s.stopped then (s, [])
  else
    match results.getLast? with
    | none => (s, [])
    | some lastResult =>
      match lastResult.alts.head? with
      | none => (s, [])
      | some alt =>
        let transcript := alt.transcript
        let confidence := alt.confidence
        let spoken := splitOnWs (lowerStr transcript)
        let allMatches :=
          collectMatches s.currentTargets s.matchedIndices spoken transcript
            confidence
        let afterMarks :=
          if allMatches.isEmpty then s.matchedIndices
          else marks.foldl addMatchedIndex s.matchedIndices
        let r := emitLoop afterMarks allMatches
        ({ s with matchedIndices := r.1 }, r.2)

/-- `updateTargetWords` on the handle (speech.ts lines 258-261): replace
the target list and clear the matched set. -/
def updateTargetWords (s : ContState) (words : List (List Char)) : ContState :=
  { s with currentTargets := words, matchedIndices := [] }

/-- `stop` on the continuous handle (speech.ts lines 249-257). -/
def stopCont (s : ContState) : ContState :=
  { s with stopped := true }

/-- The fresh closure state right after `startContinuousListening`
(speech.ts lines 175-177). -/
def initCont (targetWords : List (List Char)) : ContState :=
  ⟨targetWords, [], false⟩

/-- A whole listening epoch: fold `processContResult` over a sequence of
result events (each with its adversarial `markWordMatched` calls),
concatenating the emitted matches. -/
def runCont (s : ContState) :
    List (List SpeechResultItem × List Nat) → ContState × List MultiWordMatch
  | [] => (s, [])
  | ev :: evs =>
    let r1 := processContResult s ev.1 ev.2
    let r2 := runCont r1.1 evs
    (r2.1, r1.2 ++ r2.2)

theorem emitLoop_matched_mono (i : Nat) :
    ∀ (ms : List MultiWordMatch) (matched : List Nat), i ∈ matched →
      i ∈ (emitLoop matched ms).1 := by
  intro ms
  induction ms with
  | nil => intro matched h; exact h
  | cons m rest ih =>
    intro matched h
    unfold emitLoop
    split
    · exact ih matched h
    · exact ih _ (List.mem_cons_of_mem _ h)

theorem emitLoop_countP_zero (i : Nat) :
    ∀ (ms : List MultiWordMatch) (matched : List Nat), i ∈ matched →
      (emitLoop matched ms).2.countP (fun m => m.index == i) = 0 := by
  intro ms
  induction ms with
  | nil => intro matched _; simp [emitLoop]
  | cons m rest ih =>
    intro matched h
    unfold emitLoop
    split
    · exact ih matched h
    · rename_i hguard
      dsimp only
      rw [List.countP_cons, ih _ (List.mem_cons_of_mem _ h)]
      have hne : (m.index == i) = false := by
        rw [beq_eq_false_iff_ne]
        intro he
        exact hguard (List.elem_iff.mpr (he ▸ h))
      simp [hne]

theorem emitLoop_countP_le_one (i : Nat) :
    ∀ (ms : List MultiWordMatch) (matched : List Nat),
      (emitLoop matched ms).2.countP (fun m => m.index == i) ≤ 1 := by
  intro ms
  induction ms with
  | nil => intro matched; simp [emitLoop]
  | cons m rest ih =>
    intro matched
    unfold emitLoop
    split
    · exact ih matched
    · dsimp only
      rw [List.countP_cons]
      by_cases he : m.index = i
      · subst he
        rw [emitLoop_countP_zero m.index rest _ (List.mem_cons_self _ _)]
        simp
      · have hne : (m.index == i) = false := beq_eq_false_iff_ne.mpr he
        simp only [hne, if_false, Nat.add_zero, cond_false]
        simpa using ih _

theorem emitLoop_emitted_mem (i : Nat) :
    ∀ (ms : List MultiWordMatch) (matched : List Nat),
      1 ≤ (emitLoop matched ms).2.countP (fun m => m.index == i) →
      i ∈ (emitLoop matched ms).1 := by
  intro ms
  induction ms with
  | nil => intro matched h; simp [emitLoop] at h
  | cons m rest ih =>
    intro matched h
    unfold emitLoop
    split
    · exact ih matched (by
        unfold emitLoop at h
        rename_i hguard
        rw [if_pos hguard] at h
        exact h)
    · dsimp only
      by_cases he : m.index = i
      · subst he
        exact emitLoop_matched_mono m.index rest _ (List.mem_cons_self _ _)
      · refine ih _ ?_
        unfold emitLoop at h
        rename_i hguard
        rw [if_neg hguard] at h
        dsimp only at h
        rw [List.countP_cons] at h
        have hne : (m.index == i) = false := beq_eq_false_iff_ne.mpr he
        simpa [hne] using h

theorem addMatchedIndex_foldl_mem (i : Nat) :
    ∀ (marks m : List Nat), i ∈ m → i ∈ marks.foldl addMatchedIndex m := by
  intro marks
  induction marks with
  | nil => intro m h; exact h
  | cons a rest ih =>
    intro m h
    rw [List.foldl_cons]
    apply ih
    unfold addMatchedIndex
    split
    · exact h
    · exact List.mem_cons_of_mem _ h

theorem processContResult_cases (s : ContState) (results : List SpeechResultItem)
    (marks : List Nat) :
    processContResult s results marks = (s, []) ∨
      ∃ after ms, s.matchedIndices ⊆ after ∧
        processContResult s results marks =
          ({ s with matchedIndices := (emitLoop after ms).1 },
            (emitLoop after ms).2) := by
  unfold processContResult
  split
  · exact Or.inl rfl
  · split
    · exact Or.inl rfl
    · split
      · exact Or.inl rfl
      · refine Or.inr ⟨_, _, ?_, rfl⟩
        intro i h
        split
        · exact h
        · exact addMatchedIndex_foldl_mem i _ _ h

theorem processContResult_mono (s : ContState) (results : List SpeechResultItem)
    (marks : List Nat) (i : Nat) (h : i ∈ s.matchedIndices) :
    i ∈ (processContResult s results marks).1.matchedIndices := by
  rcases processContResult_cases s results marks with heq | ⟨after, ms, hsub, heq⟩
  · rw [heq]; exact h
  · rw [heq]
    exact emitLoop_matched_mono i ms after (hsub h)

theorem processContResult_countP_zero (s : ContState)
    (results : List SpeechResultItem) (marks : List Nat) (i : Nat)
    (h : i ∈ s.matchedIndices) :
    (processContResult s results marks).2.countP (fun m => m.index == i) = 0 := by
  rcases processContResult_cases s results marks with heq | ⟨after, ms, hsub, heq⟩
  · rw [heq]; rfl
  · rw [heq]
    exact emitLoop_countP_zero i ms after (hsub h)

theorem processContResult_countP_le_one (s : ContState)
    (results : List SpeechResultItem) (marks : List Nat) (i : Nat) :
    (processContResult s results marks).2.countP (fun m => m.index == i) ≤ 1 := by
  rcases processContResult_cases s results marks with heq | ⟨after, ms, hsub, heq⟩
  · rw [heq]; simp
  · rw [heq]
    exact emitLoop_countP_le_one i ms after

theorem processContResult_emitted_mem (s : ContState)
    (results : List SpeechResultItem) (marks : List Nat) (i : Nat)
    (h : 1 ≤ (processContResult s results marks).2.countP (fun m => m.index == i)) :
    i ∈ (processContResult s results marks).1.matchedIndices := by
  rcases processContResult_cases s results marks with heq | ⟨after, ms, hsub, heq⟩
  · rw [heq] at h; simp at h
  · rw [heq] at h ⊢
    exact emitLoop_emitted_mem i ms after h

theorem runCont_countP (i : Nat) :
    ∀ (evs : List (List SpeechResultItem × List Nat)) (s : ContState),
      (i ∈ s.matchedIndices →
        (runCont s evs).2.countP (fun m => m.index == i) = 0) ∧
      (runCont s evs).2.countP (fun m => m.index == i) ≤ 1 := by
  intro evs
  induction evs with
  | nil => intro s; exact ⟨fun _ => rfl, by simp [runCont]⟩
  | cons ev evs ih =>
    intro s
    constructor
    · intro h
      unfold runCont
      dsimp only
      rw [List.countP_append, processContResult_countP_zero s ev.1 ev.2 i h,
        (ih _).1 (processContResult_mono s ev.1 ev.2 i h)]
    · unfold runCont
      dsimp only
      rw [List.countP_append]
      by_cases h : i ∈ s.matchedIndices
      · rw [processContResult_countP_zero s ev.1 ev.2 i h,
          (ih _).1 (processContResult_mono s ev.1 ev.2 i h)]
        omega
      · rcases Nat.lt_or_ge
            ((processContResult s ev.1 ev.2).2.countP (fun m => m.index == i)) 1
          with hlt | hge
        · rw [Nat.lt_one_iff.mp hlt]
          simpa using (ih _).2
        · have hmem := processContResult_emitted_mem s ev.1 ev.2 i hge
          have h1 := processContResult_countP_le_one s ev.1 ev.2 i
          rw [(ih _).1 hmem]
          omega

/-- C10: within one `startContinuousListening` session, each target-word
index triggers `onWordMatch` at most once over any sequence of
recognition results, no matter how many interim transcripts match it and
no matter which indices the `onAllMatches` collaborator marks: once an
index enters the matched set (just before `onWordMatch` fires, or via
`markWordMatched`) it is skipped by every later recognition result, the
set only grows during result processing, and only `updateTargetWords`
clears it, re-enabling matches for the new word list. -/
theorem continuous_listening_matches_once :
    (∀ (targets : List (List Char))
        (evs : List (List SpeechResultItem × List Nat)) (i : Nat),
      (runCont (initCont targets) evs).2.countP (fun m => m.index == i) ≤ 1) ∧
      (∀ (s : ContState) (evs : List (List SpeechResultItem × List Nat)) (i : Nat),
        i ∈ s.matchedIndices →
        (runCont s evs).2.countP (fun m => m.index == i) = 0) ∧
      (∀ (s : ContState) (results : List SpeechResultItem) (marks : List Nat)
          (i : Nat), i ∈ s.matchedIndices →
        i ∈ (processContResult s results marks).1.matchedIndices) ∧
      (∀ (s : ContState) (words : List (List Char)),
        (updateTargetWords s words).matchedIndices = [] ∧
          (updateTargetWords s words).currentTargets = words) := by
  refine ⟨?_, ?_, ?_, ?_⟩
  · intro targets evs i
    exact (runCont_countP i evs (initCont targets)).2
  · intro s evs i h
    exact (runCont_countP i evs s).1 h
  · intro s results marks i h
    exact processContResult_mono s results marks i h
  · intro s words
    exact ⟨rfl, rfl⟩

/-- A session state with target "cat" whose index 0 is already in the
matched set, and a final recognition result that speaks "cat" again. -/
def contStateC10 : ContState := ⟨["cat".toList], [0], false⟩

def resultItemC10 : SpeechResultItem := ⟨[⟨"cat".toList, 1⟩], true⟩

theorem continuous_listening_matches_once_witness :
    (runCont contStateC10 [([resultItemC10], [])]).2.countP
        (fun m => m.index == 0) = 0 :=
  continuous_listening_matches_once.2.1 contStateC10 [([resultItemC10], [])] 0
    (by decide)
